import Mathlib

/-!
Verification of the schedule-resolution and change-detection core of
`src/main.py` (a Telegram outage-notification bot), as a shallow embedding.

Modelling conventions:
* A timetable `dict[str,str]` with well-formed `"HH:MM"` keys is embedded as a
  `List Entry` of already-parsed `((hour, minute), status)` pairs; the `"HH:MM"`
  key corresponds bijectively to its parsed `(h, m)` pair.
* `resolve_slot` projects every entry onto `now`'s calendar date via
  `now_local.replace(hour=h, minute=m, second=0, microsecond=0)`.  Since every
  projected instant shares `now`'s date, a `datetime` on that date is embedded
  as its microsecond-of-day, a `Nat`; `replace` then yields
  `(h*60 + m) * 60000000` and `datetime` comparison becomes `Nat` comparison.
* Python exceptions are embedded as an explicit `Except` error channel.
* `datetime.now(timezone.utc)` timestamps used by the group cache are embedded
  as microseconds on an absolute axis (`Int`); `timedelta` comparison is exact
  integer comparison.
-/

namespace Svitlana

/-- Parsed form of an `"HH:MM"` timetable key: `(hour, minute)`. -/
abbrev TimeOfDay := Nat × Nat

/-- An upstream status code, e.g. `"0"`, `"10"`, `"1"` (kept opaque as a string). -/
abbrev Status := String

/-- One timetable entry: parsed time-of-day paired with its status code. -/
abbrev Entry := TimeOfDay × Status

/-- A resolved slot, exactly the `(hhmm, st)` pair built by `resolve_slot`. -/
abbrev Slot := Entry

/-- Microseconds in one minute. -/
def usPerMinute : Nat := 60000000

/-- Microsecond-of-day of `now_local.replace(hour=h, minute=m, second=0,
microsecond=0)` (the calendar date is shared with `now` and cancels out of
every comparison made by `resolve_slot`). -/
def projectKey (t : TimeOfDay) : Nat := (t.1 * 60 + t.2) * usPerMinute

/-- The exceptions relevant to `resolve_slot`.  The Python code only ever
raises `IndexError` (from the `slots[-1]` fallback on an empty list).
`emptyTimetableError` is the dedicated error the specification names
(`EmptyTimetableError`); it appears nowhere in the code and is included only
so that the spec's description of the failure mode can be compared with the
code's actual one. -/
inductive PyError where
  | indexError
  | emptyTimetableError
deriving DecidableEq

/-- Ordering of projected slots by their instant, the key used by
`slots.sort(key=lambda x: x[0])`. -/
def slotLE (a b : Nat × Slot) : Prop := a.1 ≤ b.1

instance : DecidableRel slotLE := fun a b => Nat.decLe a.1 b.1

instance : IsTotal (Nat × Slot) slotLE := ⟨fun a b => Nat.le_total a.1 b.1⟩

instance : IsTrans (Nat × Slot) slotLE := ⟨fun _ _ _ => Nat.le_trans⟩

/-- The projected and sorted slot list built by the first half of
`resolve_slot`: each entry becomes `(dt, (hhmm, st))` and the list is sorted
ascending by `dt`.  Python's `list.sort` is stable; so is `insertionSort`. -/
def sortedSlots (times : List Entry) : List (Nat × Slot) :=
  List.insertionSort slotLE (times.map (fun e => (projectKey e.1, e)))

/-- The fallback `current = (slots[-1][1], slots[-1][2]); nxt = (slots[0][1],
slots[0][2])` — on an empty list, `slots[-1]` raises `IndexError`. -/
def wrapLast (slots : List (Nat × Slot)) : Except PyError (Slot × Option Slot) :=
  match slots.getLast?, slots.head? with
  | some l, some h => .ok (l.2, some h.2)
  | _, _ => .error .indexError

/-- The scan loop of `resolve_slot`, one constructor step per iteration of
`for i, (dt, hhmm, st) in enumerate(slots)`.  `all` is the full sorted list
(needed for `slots[-1]` / `slots[0]` inside the loop); the suffix still to be
scanned is the explicit list argument, so `rest ≠ []` is exactly
`i + 1 < len(slots)`.  The `else` branch models the `break`. -/
def resolveLoop (now : Nat) (all : List (Nat × Slot)) :
    List (Nat × Slot) → Option Slot → Option Slot →
    Except PyError (Option Slot × Option Slot)
  | [], current, nxt => .ok (current, nxt)
  | (dt, s) :: rest, current, nxt =>
    if dt ≤ now then
      resolveLoop now all rest (some s)
        (match rest with
         | (_, s2) :: _ => some s2
         | [] => nxt)
    else
      match current with
      | none => (wrapLast all).map (fun p => (some p.1, p.2))
      | some _ => .ok (current, nxt)

/-- `resolve_slot(times, now_local)` from `src/main.py`: build the projected
slot list, sort it, scan it, and apply the final `if current is None`
fallback. -/
def resolve_slot (times : List Entry) (now : Nat) :
    Except PyError (Slot × Option Slot) :=
  let slots := sortedSlots times
  match resolveLoop now slots slots none none with
  | .error e => .error e
  | .ok (some c, nxt) => .ok (c, nxt)
  | .ok (none, _) => wrapLast slots

/-- Errors of the upstream fetch (`aiohttp` network failure, or `KeyError`
when the group is absent from `dataJson`); the poller catches both alike. -/
inductive FetchError where
  | upstreamError
  | unknownGroupError
deriving DecidableEq

/-- The per-chat record `{"group": str|None, "last_slot": str|None,
"last_status": str|None}` stored in the `users` dict (`last_slot` holds an
`"HH:MM"` key, embedded as its parsed `TimeOfDay`). -/
structure UserState where
  group : Option String
  last_slot : Option TimeOfDay
  last_status : Option Status
deriving DecidableEq

/-- The change-detection test on line 121 of `src/main.py`:
`u.get("last_slot") != cur[0] or u.get("last_status") != cur[1]`. -/
def shouldNotify (u : UserState) (cur : Slot) : Bool :=
  (u.last_slot != some cur.1) || (u.last_status != some cur.2)

/-- The data handed to `status_text(group, cur, nxt)`; the rendered message is
a pure function of this triple, and Presentation is outside the core. -/
abbrev Notification := String × Slot × Option Slot

/-- The body of the poller's per-subscriber `try`/`except` block: skip
subscribers without a (truthy) group, swallow fetch and resolution failures
leaving the state untouched, otherwise apply the change-detection test and,
when it fires, emit the notification and update `last_slot`/`last_status`. -/
def checkUser (fetch : String → Except FetchError (List Entry)) (now : Nat)
    (u : UserState) : UserState × Option Notification :=
  match u.group with
  | none => (u, none)
  | some g =>
    if g = "" then (u, none)
    else
      match fetch g with
      | .error _ => (u, none)
      | .ok times =>
        match resolve_slot times now with
        | .error _ => (u, none)
        | .ok (cur, nxt) =>
          if shouldNotify u cur then
            ({ u with last_slot := some cur.1, last_status := some cur.2 },
             some (g, cur, nxt))
          else (u, none)

/-- One sweep of `poller` over the snapshot `list(users.items())`: every
subscriber is visited in order; the updated states and the emitted
notifications are collected. -/
def sweep (fetch : String → Except FetchError (List Entry)) (now : Nat) :
    List (Nat × UserState) → List (Nat × UserState) × List (Nat × Notification)
  | [] => ([], [])
  | (cid, u) :: rest =>
    let r := checkUser fetch now u
    let rec' := sweep fetch now rest
    ((cid, r.1) :: rec'.1,
     (match r.2 with
      | some n => [(cid, n)]
      | none => []) ++ rec'.2)

/-- The `set:` callback handler (`set_group`): after `setdefault`, the user's
record is overwritten with `{"group": g, "last_slot": None, "last_status":
None}`, for any prior state. -/
def set_group (_u : UserState) (g : String) : UserState :=
  { group := some g, last_slot := none, last_status := none }

/-- `is_default_group(g)`: `"#" not in g`. -/
def is_default_group (g : String) : Bool := !(g.contains '#')

/-- The group list computed on a cache miss:
`sorted([g for g in data.get("dataJson", {}).keys() if is_default_group(g)])`.
Python sorts strings ascending by code points, which is exactly the `String`
linear order. -/
def compute_groups (keys : List String) : List String :=
  List.insertionSort (· ≤ ·) (keys.filter is_default_group)

/-- The module-level `_groups_cache = {"ts": None, "groups": []}`, timestamps
in absolute microseconds. -/
structure GroupsCache where
  ts : Option Int
  groups : List String
deriving DecidableEq

/-- `get_groups`: serve from the cache when `ts` is set (a `datetime` is
always truthy) and `now - ts < timedelta(minutes=cache_minutes)`; otherwise
refetch, storing a fresh timestamp `now2` (the `datetime.now` taken after the
awaited fetch) and the recomputed list together.  `keys` are the keys of the
fetched `dataJson`; the returned `Bool` records whether the fetch happened. -/
def get_groups (now : Int) (cache : GroupsCache) (keys : List String)
    (now2 : Int) (cache_minutes : Int) : List String × GroupsCache × Bool :=
  match cache.ts with
  | some ts =>
    if now - ts < cache_minutes * (usPerMinute : Int) then
      (cache.groups, cache, false)
    else
      let groups := compute_groups keys
      (groups, ⟨some now2, groups⟩, true)
  | none =>
    let groups := compute_groups keys
    (groups, ⟨some now2, groups⟩, true)

/-! ### Helper lemmas about the sorted slot list -/

theorem length_sortedSlots (times : List Entry) :
    (sortedSlots times).length = times.length := by
  unfold sortedSlots
  rw [List.length_insertionSort, List.length_map]

theorem sortedSlots_ne_nil {times : List Entry} (hne : times ≠ []) :
    sortedSlots times ≠ [] := by
  intro h
  apply hne
  have := congrArg List.length h
  rw [length_sortedSlots] at this
  exact List.length_eq_zero.mp this

theorem mem_sortedSlots {times : List Entry} {x : Nat × Slot} :
    x ∈ sortedSlots times ↔ x.2 ∈ times ∧ x.1 = projectKey x.2.1 := by
  unfold sortedSlots
  rw [List.mem_insertionSort, List.mem_map]
  constructor
  · rintro ⟨e, he, rfl⟩
    exact ⟨he, rfl⟩
  · rintro ⟨h2, h1⟩
    exact ⟨x.2, h2, by cases x with | mk a b => simp only at h1 ⊢; rw [h1]⟩

theorem sorted_sortedSlots (times : List Entry) :
    List.Sorted slotLE (sortedSlots times) :=
  List.sorted_insertionSort slotLE _

theorem sorted_le_getLast :
    ∀ {l : List (Nat × Slot)}, List.Sorted slotLE l → ∀ (hne : l ≠ []),
      ∀ x ∈ l, x.1 ≤ (l.getLast hne).1
  | [], _, hne => absurd rfl hne
  | a :: t, hs, _ => by
    intro x hx
    cases t with
    | nil =>
      rcases List.mem_singleton.mp hx with rfl
      exact Nat.le_refl _
    | cons b t' =>
      rw [List.getLast_cons (List.cons_ne_nil b t')]
      rcases List.mem_cons.mp hx with rfl | hx'
      · exact List.rel_of_sorted_cons hs _ (List.getLast_mem _)
      · exact sorted_le_getLast hs.of_cons (List.cons_ne_nil b t') x hx'

theorem sorted_head_le {l : List (Nat × Slot)} (hs : List.Sorted slotLE l)
    (hne : l ≠ []) : ∀ x ∈ l, (l.head hne).1 ≤ x.1 := by
  cases l with
  | nil => exact absurd rfl hne
  | cons a t =>
    intro x hx
    rcases List.mem_cons.mp hx with rfl | hx'
    · exact Nat.le_refl _
    · exact List.rel_of_sorted_cons hs _ hx'

theorem head_eq_of_eq_cons {α : Type _} {l : List α} {a : α} {t : List α}
    (h : l = a :: t) : ∀ hne : l ≠ [], l.head hne = a := by
  subst h
  intro _
  rfl

/-! ### Characterization of the scan loop -/

/-- One unfolding step of the loop on a non-empty remainder, with the
lookahead update written through `head?`. -/
theorem resolveLoop_cons (now : Nat) (all : List (Nat × Slot)) (dt : Nat)
    (s : Slot) (rest : List (Nat × Slot)) (current nxt : Option Slot) :
    resolveLoop now all ((dt, s) :: rest) current nxt =
      if dt ≤ now then
        resolveLoop now all rest (some s) ((rest.head?.map Prod.snd).or nxt)
      else
        match current with
        | none => (wrapLast all).map (fun p => (some p.1, p.2))
        | some _ => Except.ok (current, nxt) := by
  cases rest with
  | nil => rfl
  | cons b t => rfl

/-- When every remaining slot's instant is `≤ now`, the loop runs to the end:
`current` ends at the last remaining slot, and `nxt` also ends at that same
last slot as soon as at least two slots remain — the lookahead `slots[i+1]`
is never the wrapped-around first slot. -/
theorem resolveLoop_all_le (now : Nat) (all : List (Nat × Slot)) :
    ∀ (l : List (Nat × Slot)) (hne : l ≠ []), (∀ x ∈ l, x.1 ≤ now) →
      ∀ (current nxt : Option Slot),
    resolveLoop now all l current nxt =
      Except.ok (some (l.getLast hne).2,
        if 2 ≤ l.length then some (l.getLast hne).2 else nxt) := by
  intro l
  induction l with
  | nil => intro hne; exact absurd rfl hne
  | cons a t ih =>
    intro _ h current nxt
    obtain ⟨ka, sa⟩ := a
    have ha : ka ≤ now := h (ka, sa) (List.mem_cons_self _ _)
    rw [resolveLoop_cons, if_pos ha]
    cases t with
    | nil => simp [resolveLoop]
    | cons b t' =>
      have hlk : (((b :: t').head?.map Prod.snd).or nxt) = some b.2 := rfl
      rw [hlk,
        ih (List.cons_ne_nil _ _) (fun x hx => h x (List.mem_cons_of_mem _ hx)),
        List.getLast_cons (List.cons_ne_nil b t')]
      cases t' with
      | nil => simp [List.getLast]
      | cons c t'' => simp

/-- Hitting a slot with instant `> now` stops the loop: with no current slot
yet, both fields wrap via `slots[-1]` / `slots[0]`; otherwise the accumulated
pair is returned as is. -/
theorem resolveLoop_head_gt (now : Nat) (all : List (Nat × Slot)) (k : Nat)
    (s : Slot) (rest : List (Nat × Slot)) (hk : ¬ k ≤ now)
    (current nxt : Option Slot) :
    resolveLoop now all ((k, s) :: rest) current nxt =
      match current with
      | none => (wrapLast all).map (fun p => (some p.1, p.2))
      | some _ => Except.ok (current, nxt) := by
  rw [resolveLoop_cons, if_neg hk]

/-- Scanning a block of slots `≤ now` followed by one `> now`: the loop
breaks at the boundary with `current` the last slot of the block and `nxt`
the boundary slot. -/
theorem resolveLoop_split (now : Nat) (all : List (Nat × Slot)) :
    ∀ (l₁ : List (Nat × Slot)) (hne : l₁ ≠ []), (∀ x ∈ l₁, x.1 ≤ now) →
      ∀ (k : Nat) (s : Slot) (rest : List (Nat × Slot)), ¬ k ≤ now →
      ∀ (current nxt : Option Slot),
    resolveLoop now all (l₁ ++ (k, s) :: rest) current nxt =
      Except.ok (some (l₁.getLast hne).2, some s) := by
  intro l₁
  induction l₁ with
  | nil => intro hne; exact absurd rfl hne
  | cons a t ih =>
    intro _ h₁ k s rest hk current nxt
    obtain ⟨ka, sa⟩ := a
    have ha : ka ≤ now := h₁ (ka, sa) (List.mem_cons_self _ _)
    rw [List.cons_append, resolveLoop_cons, if_pos ha]
    cases t with
    | nil =>
      rw [List.nil_append, resolveLoop_head_gt now all k s rest hk]
      rfl
    | cons b t' =>
      have hlk : ((((b :: t') ++ (k, s) :: rest).head?.map Prod.snd).or nxt)
          = some b.2 := rfl
      rw [hlk,
        ih (List.cons_ne_nil _ _) (fun x hx => h₁ x (List.mem_cons_of_mem _ hx))
          k s rest hk,
        List.getLast_cons (List.cons_ne_nil b t')]

/-! ### Scenario lemmas for `resolve_slot` -/

/-- Scenario "now is at or after the last slot": every projected instant is
`≤ now`.  The current slot is the last of the sorted list and, as soon as the
timetable has two entries, the returned next slot is that same last slot —
not the first slot of the next day. -/
theorem resolve_slot_all_le (times : List Entry) (now : Nat)
    (hne : times ≠ []) (hall : ∀ e ∈ times, projectKey e.1 ≤ now) :
    ∃ cur, (sortedSlots times).getLast? = some cur ∧
      resolve_slot times now =
        Except.ok (cur.2, if 2 ≤ times.length then some cur.2 else none) := by
  have hS := sortedSlots_ne_nil hne
  have hx : ∀ x ∈ sortedSlots times, x.1 ≤ now := by
    intro x hx
    obtain ⟨h2, h1⟩ := mem_sortedSlots.mp hx
    rw [h1]
    exact hall _ h2
  refine ⟨(sortedSlots times).getLast hS, List.getLast?_eq_getLast _ hS, ?_⟩
  simp only [resolve_slot]
  rw [resolveLoop_all_le now _ _ hS hx none none, length_sortedSlots]

/-- Scenario "now precedes every slot": the loop breaks at the very first
slot with no current yet, so both fields wrap: current is the last slot of
the sorted list, next its first slot. -/
theorem resolve_slot_all_gt (times : List Entry) (now : Nat)
    (hne : times ≠ []) (hall : ∀ e ∈ times, now < projectKey e.1) :
    ∃ cur nxt, (sortedSlots times).getLast? = some cur ∧
      (sortedSlots times).head? = some nxt ∧
      resolve_slot times now = Except.ok (cur.2, some nxt.2) := by
  have hS := sortedSlots_ne_nil hne
  simp only [resolve_slot]
  obtain ⟨⟨k, s⟩, rest, hsl⟩ := List.exists_cons_of_ne_nil hS
  rw [hsl]
  have hk : ¬ k ≤ now := by
    have hmem : ((k, s) : Nat × Slot) ∈ sortedSlots times := by
      rw [hsl]; exact List.mem_cons_self _ _
    obtain ⟨h2, h1⟩ := mem_sortedSlots.mp hmem
    simp only at h1
    intro hle
    exact absurd (Nat.lt_of_lt_of_le (hall _ h2) (h1 ▸ hle)) (Nat.lt_irrefl now)
  rw [resolveLoop_head_gt now _ k s rest hk none none]
  have hgl : ((k, s) :: rest).getLast? =
      some (((k, s) :: rest).getLast (List.cons_ne_nil _ _)) :=
    List.getLast?_eq_getLast _ _
  refine ⟨((k, s) :: rest).getLast (List.cons_ne_nil _ _), (k, s),
    hgl, rfl, ?_⟩
  simp [wrapLast, hgl, Except.map]

/-- Scenario "now falls strictly inside the day's slots": some slot is
`≤ now` and some is `> now`.  The sorted list splits as
`takeWhile (≤ now) ++ dropWhile (≤ now)`; the current slot is the last of the
first block and the next slot is the head of the second. -/
theorem resolve_slot_mixed (times : List Entry) (now : Nat)
    (hne : times ≠ [])
    (hle : ∃ e ∈ times, projectKey e.1 ≤ now)
    (hgt : ∃ e ∈ times, now < projectKey e.1) :
    ∃ cur nxt,
      ((sortedSlots times).takeWhile
        (fun x => decide (x.1 ≤ now))).getLast? = some cur ∧
      ((sortedSlots times).dropWhile
        (fun x => decide (x.1 ≤ now))).head? = some nxt ∧
      resolve_slot times now = Except.ok (cur.2, some nxt.2) := by
  have hS := sortedSlots_ne_nil hne
  have hsorted := sorted_sortedSlots times
  set p : Nat × Slot → Bool := fun x => decide (x.1 ≤ now) with hp
  have heq : (sortedSlots times).takeWhile p ++ (sortedSlots times).dropWhile p
      = sortedSlots times := List.takeWhile_append_dropWhile ..
  have hdw : (sortedSlots times).dropWhile p ≠ [] := by
    intro hnil
    rw [hnil, List.append_nil] at heq
    obtain ⟨e, he, hegt⟩ := hgt
    have hxmem : ((projectKey e.1, e) : Nat × Slot) ∈ sortedSlots times :=
      mem_sortedSlots.mpr ⟨he, rfl⟩
    rw [← heq] at hxmem
    have hpx := List.mem_takeWhile_imp hxmem
    rw [hp] at hpx
    have := of_decide_eq_true hpx
    exact absurd (Nat.lt_of_lt_of_le hegt this) (Nat.lt_irrefl now)
  have htw : (sortedSlots times).takeWhile p ≠ [] := by
    intro hnil
    obtain ⟨a, t, hcons⟩ := List.exists_cons_of_ne_nil hS
    have hpa : p a = false := by
      rw [hcons, List.takeWhile_cons] at hnil
      cases hb : p a with
      | false => rfl
      | true => rw [hb] at hnil; simp at hnil
    obtain ⟨e, he, hele⟩ := hle
    have hxmem : ((projectKey e.1, e) : Nat × Slot) ∈ sortedSlots times :=
      mem_sortedSlots.mpr ⟨he, rfl⟩
    have hmin := sorted_head_le hsorted hS _ hxmem
    rw [head_eq_of_eq_cons hcons hS] at hmin
    have hagt : ¬ a.1 ≤ now := by
      rw [hp] at hpa
      exact of_decide_eq_false hpa
    exact hagt (Nat.le_trans hmin hele)
  obtain ⟨⟨k, s⟩, rest, hdwcons⟩ := List.exists_cons_of_ne_nil hdw
  have hpk : p (k, s) = false := by
    have h2 := List.head_dropWhile_not p (sortedSlots times) hdw
    rw [head_eq_of_eq_cons hdwcons hdw] at h2
    exact h2
  have hk : ¬ k ≤ now := by
    rw [hp] at hpk
    exact of_decide_eq_false hpk
  have h₁ : ∀ x ∈ (sortedSlots times).takeWhile p, x.1 ≤ now := by
    intro x hx
    have hpx := List.mem_takeWhile_imp hx
    rw [hp] at hpx
    exact of_decide_eq_true hpx
  have hsplit : sortedSlots times =
      (sortedSlots times).takeWhile p ++ (k, s) :: rest := by
    conv_lhs => rw [← heq]
    rw [hdwcons]
  refine ⟨((sortedSlots times).takeWhile p).getLast htw, (k, s),
    List.getLast?_eq_getLast _ htw, by rw [hdwcons, List.head?_cons], ?_⟩
  simp only [resolve_slot]
  have hloop : resolveLoop now (sortedSlots times) (sortedSlots times) none none
      = Except.ok
          (some (((sortedSlots times).takeWhile p).getLast htw).2, some s) := by
    conv_lhs => rw [hsplit]
    exact resolveLoop_split now _ _ htw h₁ k s rest hk none none
  rw [hloop]

/-! ### Further helpers for the claims -/

theorem mem_of_getLast?_eq {α : Type _} {l : List α} {a : α}
    (h : l.getLast? = some a) : a ∈ l := by
  cases l with
  | nil => exact absurd h (by simp)
  | cons b t =>
    have h2 := List.getLast?_eq_getLast (b :: t) (List.cons_ne_nil _ _)
    rw [h] at h2
    rw [Option.some_injective _ h2]
    exact List.getLast_mem _

/-- In a sorted slot list, everything surviving `dropWhile (≤ now)` has
instant strictly after `now`. -/
theorem dropWhile_gt_of_sorted {l : List (Nat × Slot)}
    (hs : List.Sorted slotLE l) (now : Nat) :
    ∀ x ∈ l.dropWhile (fun y => decide (y.1 ≤ now)), now < x.1 := by
  intro x hx
  have hdne : l.dropWhile (fun y => decide (y.1 ≤ now)) ≠ [] :=
    List.ne_nil_of_mem hx
  have hped := List.head_dropWhile_not (fun y => decide (y.1 ≤ now)) l hdne
  have hsd : List.Sorted slotLE (l.dropWhile (fun y => decide (y.1 ≤ now))) :=
    List.Pairwise.sublist (List.dropWhile_suffix _).sublist hs
  have hmin := sorted_head_le hsd hdne x hx
  have hhgt : ¬ ((l.dropWhile (fun y => decide (y.1 ≤ now))).head hdne).1 ≤ now :=
    of_decide_eq_false hped
  exact Nat.lt_of_lt_of_le (Nat.lt_of_not_le hhgt) hmin

/-- Among entries with distinct projected instants, the maximal entry with
instant `≤ now` is unique. -/
theorem unique_max_entry {times : List Entry} {cur : Entry} {now : Nat}
    (hcur : cur ∈ times) (hcle : projectKey cur.1 ≤ now)
    (hmax : ∀ e ∈ times, projectKey e.1 ≤ now →
      projectKey e.1 ≤ projectKey cur.1)
    (hnd : (times.map (fun e => projectKey e.1)).Nodup) :
    ∀ e ∈ times, projectKey e.1 ≤ now →
      (∀ x ∈ times, projectKey x.1 ≤ now →
        projectKey x.1 ≤ projectKey e.1) →
      e = cur := by
  intro e he hele hemax
  have h1 : projectKey e.1 ≤ projectKey cur.1 := hmax e he hele
  have h2 : projectKey cur.1 ≤ projectKey e.1 := hemax cur hcur hcle
  exact List.inj_on_of_nodup_map hnd he hcur (Nat.le_antisymm h1 h2)

/-- On any non-empty timetable the resolution succeeds. -/
theorem resolve_slot_isOk (times : List Entry) (now : Nat) (hne : times ≠ []) :
    ∃ cur nxt, resolve_slot times now = Except.ok (cur, nxt) := by
  by_cases hex : ∃ e ∈ times, projectKey e.1 ≤ now
  · by_cases hgt : ∃ e ∈ times, now < projectKey e.1
    · obtain ⟨cur, nxt, _, _, h⟩ := resolve_slot_mixed times now hne hex hgt
      exact ⟨cur.2, some nxt.2, h⟩
    · push_neg at hgt
      obtain ⟨cur, _, h⟩ := resolve_slot_all_le times now hne hgt
      exact ⟨cur.2, _, h⟩
  · push_neg at hex
    obtain ⟨cur, nxt, _, _, h⟩ := resolve_slot_all_gt times now hne hex
    exact ⟨cur.2, some nxt.2, h⟩

/-- A sweep is the independent per-subscriber map: every subscriber's final
state and emitted notification is a function of its own record alone. -/
theorem sweep_eq (fetch : String → Except FetchError (List Entry)) (now : Nat) :
    ∀ users : List (Nat × UserState),
      (sweep fetch now users).1 =
        users.map (fun p => (p.1, (checkUser fetch now p.2).1)) ∧
      (sweep fetch now users).2 =
        users.filterMap
          (fun p => ((checkUser fetch now p.2).2).map (fun n => (p.1, n))) := by
  intro users
  induction users with
  | nil => exact ⟨rfl, rfl⟩
  | cons hd rest ih =>
    obtain ⟨cid, u⟩ := hd
    obtain ⟨ih1, ih2⟩ := ih
    constructor
    · simp only [sweep, List.map_cons]
      rw [ih1]
    · simp only [sweep, List.filterMap_cons]
      cases hr : (checkUser fetch now u).2 with
      | none => simp only [hr, Option.map_none', List.nil_append]; rw [ih2]
      | some n =>
        simp only [hr, Option.map_some', List.singleton_append]
        rw [ih2]

/-- A subscriber whose fetch or resolution fails is left untouched: state
unchanged, no notification. -/
theorem checkUser_error_unchanged
    (fetch : String → Except FetchError (List Entry)) (now : Nat)
    (u : UserState) (g : String) (hg : u.group = some g) :
    (∀ e, fetch g = Except.error e → checkUser fetch now u = (u, none)) ∧
    (∀ times e, fetch g = Except.ok times →
      resolve_slot times now = Except.error e →
      checkUser fetch now u = (u, none)) := by
  constructor
  · intro e hf
    by_cases hge : g = ""
    · simp [checkUser, hg, hge]
    · simp [checkUser, hg, hge, hf]
  · intro times e hf hr
    by_cases hge : g = ""
    · simp [checkUser, hg, hge]
    · simp [checkUser, hg, hge, hf, hr]

/-! ### The claims -/

/-- C5: the change-detection decision is true exactly when the stored
`last_slot` differs from the current slot's time-of-day or the stored
`last_status` differs from its status; in particular it is always true when
`last_slot` is `None` (first evaluation after subscription). -/
theorem shouldNotify_policy (u : UserState) (cur : Slot) :
    (shouldNotify u cur = true ↔
      (u.last_slot ≠ some cur.1 ∨ u.last_status ≠ some cur.2)) ∧
    (u.last_slot = none → shouldNotify u cur = true) := by
  constructor
  · simp [shouldNotify, Bool.or_eq_true, bne_iff_ne]
  · intro h
    simp [shouldNotify, h]

/-- C5 witness at a concrete subscriber and slot. -/
theorem shouldNotify_policy_witness :
    (shouldNotify ⟨some "1", none, none⟩ ((0, 0), "0") = true ↔
      ((none : Option TimeOfDay) ≠ some ((0, 0) : TimeOfDay) ∨
        (none : Option Status) ≠ some "0")) ∧
    ((none : Option TimeOfDay) = none →
      shouldNotify ⟨some "1", none, none⟩ ((0, 0), "0") = true) :=
  shouldNotify_policy ⟨some "1", none, none⟩ ((0, 0), "0")

/-- C6: within one sweep, each subscriber's outcome is a function of its own
record only (a failure for one cannot abort the sweep or change another's
evaluation), and a subscriber whose fetch or resolution fails keeps its
`last_slot`/`last_status` unchanged and receives no notification. -/
theorem sweep_failure_isolation
    (fetch : String → Except FetchError (List Entry)) (now : Nat)
    (users : List (Nat × UserState)) :
    ((sweep fetch now users).1 =
      users.map (fun p => (p.1, (checkUser fetch now p.2).1))) ∧
    ((sweep fetch now users).2 =
      users.filterMap
        (fun p => ((checkUser fetch now p.2).2).map (fun n => (p.1, n)))) ∧
    (∀ u g e, (u : UserState).group = some g → fetch g = Except.error e →
      checkUser fetch now u = (u, none)) ∧
    (∀ u g times e, (u : UserState).group = some g →
      fetch g = Except.ok times → resolve_slot times now = Except.error e →
      checkUser fetch now u = (u, none)) := by
  refine ⟨(sweep_eq fetch now users).1, (sweep_eq fetch now users).2, ?_, ?_⟩
  · intro u g e hg hf
    exact (checkUser_error_unchanged fetch now u g hg).1 e hf
  · intro u g times e hg hf hr
    exact (checkUser_error_unchanged fetch now u g hg).2 times e hf hr

/-- C7: selecting a group overwrites the subscriber record with the new
group and `None` in both `last_*` fields, so the next change-detection
decision is true for any window. -/
theorem set_group_resets (u : UserState) (g : String) :
    (set_group u g).group = some g ∧
    (set_group u g).last_slot = none ∧
    (set_group u g).last_status = none ∧
    (∀ cur : Slot, shouldNotify (set_group u g) cur = true) :=
  ⟨rfl, rfl, rfl, fun _ => rfl⟩

/-- C9: a single-entry timetable resolves to that entry as current; next is
that same entry when its instant is still ahead of `now`, and absent when
its instant is `≤ now`. -/
theorem resolve_single_entry (t : TimeOfDay) (st : Status) (now : Nat) :
    resolve_slot [(t, st)] now =
      Except.ok ((t, st),
        if projectKey t ≤ now then none else some (t, st)) := by
  by_cases h : projectKey t ≤ now <;>
    simp [resolve_slot, sortedSlots, resolveLoop, wrapLast, Except.map, h]

/-- C8: a listing request with a live cache (`ts` set, elapsed < 60 min)
returns the cached list with no fetch and no cache change; a request with
`ts` unset or an expired cache refetches and refreshes timestamp and group
list together, returning the fresh list. -/
theorem get_groups_cache_policy (cache : GroupsCache) (now now2 : Int)
    (keys : List String) :
    (∀ ts, cache.ts = some ts → now - ts < 60 * (usPerMinute : Int) →
      get_groups now cache keys now2 60 = (cache.groups, cache, false)) ∧
    (∀ ts, cache.ts = some ts → ¬ now - ts < 60 * (usPerMinute : Int) →
      get_groups now cache keys now2 60 =
        (compute_groups keys, ⟨some now2, compute_groups keys⟩, true)) ∧
    (cache.ts = none →
      get_groups now cache keys now2 60 =
        (compute_groups keys, ⟨some now2, compute_groups keys⟩, true)) := by
  refine ⟨?_, ?_, ?_⟩
  · intro ts hts hlt
    simp [get_groups, hts, hlt]
  · intro ts hts hlt
    simp [get_groups, hts, hlt]
  · intro hts
    simp [get_groups, hts]

/-- C8 witness: live-cache hit, expired-cache refetch and unset-cache
refetch at concrete instants. -/
theorem get_groups_cache_policy_witness :
    (get_groups 1 ⟨some 0, ["x"]⟩ ["y"] 2 60 = (["x"], ⟨some 0, ["x"]⟩, false)) ∧
    (get_groups 9000000000 ⟨some 0, ["x"]⟩ ["y"] 9000000001 60 =
      (compute_groups ["y"], ⟨some 9000000001, compute_groups ["y"]⟩, true)) ∧
    (get_groups 1 ⟨none, []⟩ ["y"] 2 60 =
      (compute_groups ["y"], ⟨some 2, compute_groups ["y"]⟩, true)) :=
  ⟨(get_groups_cache_policy ⟨some 0, ["x"]⟩ 1 2 ["y"]).1 0 rfl (by decide),
   (get_groups_cache_policy ⟨some 0, ["x"]⟩ 9000000000 9000000001 ["y"]).2.1 0
     rfl (by decide),
   (get_groups_cache_policy ⟨none, []⟩ 1 2 ["y"]).2.2 rfl⟩

/-- C10: the listing consists exactly of the fetched `dataJson` keys that do
not contain `'#'`, sorted ascending, with no duplicates (keys of a dict are
unique). -/
theorem compute_groups_spec (keys : List String) (hnd : keys.Nodup) :
    (∀ g, g ∈ compute_groups keys ↔ g ∈ keys ∧ g.contains '#' = false) ∧
    List.Sorted (· ≤ ·) (compute_groups keys) ∧
    (compute_groups keys).Nodup := by
  refine ⟨?_, List.sorted_insertionSort _ _, ?_⟩
  · intro g
    unfold compute_groups
    rw [List.mem_insertionSort, List.mem_filter]
    unfold is_default_group
    rw [Bool.not_eq_true']
  · exact (List.perm_insertionSort _ _).symm.nodup (hnd.filter _)

/-- C10 witness: a concrete key set with a `'#'` key filtered out. -/
theorem compute_groups_spec_witness :
    (["2", "1#x", "1"] : List String).Nodup ∧
    ((∀ g, g ∈ compute_groups ["2", "1#x", "1"] ↔
        g ∈ ["2", "1#x", "1"] ∧ g.contains '#' = false) ∧
      List.Sorted (· ≤ ·) (compute_groups ["2", "1#x", "1"]) ∧
      (compute_groups ["2", "1#x", "1"]).Nodup) :=
  ⟨by decide, compute_groups_spec ["2", "1#x", "1"] (by decide)⟩

/-- C6 witness: a concrete subscriber whose fetch fails is returned
untouched with no notification. -/
theorem sweep_failure_isolation_witness :
    checkUser
      (fun g => if g = "1" then Except.error FetchError.upstreamError
        else Except.ok [((0, 0), "0")]) 0
      ⟨some "1", some (0, 0), some "0"⟩ =
    (⟨some "1", some (0, 0), some "0"⟩, none) :=
  (sweep_failure_isolation
    (fun g => if g = "1" then Except.error FetchError.upstreamError
      else Except.ok [((0, 0), "0")]) 0 []).2.2.1
    ⟨some "1", some (0, 0), some "0"⟩ "1" FetchError.upstreamError rfl rfl

/-- C1 counterexample: for timetable `{"00:00":A, "12:00":B}` at
`now` = 23:00 the code returns next = `("12:00",B)` — the current (last)
slot itself — not the claimed wrap-around `("00:00",A)`. -/
theorem resolve_wraparound_counterexample :
    resolve_slot [((0, 0), "A"), ((12, 0), "B")] (projectKey (23, 0)) =
      Except.ok (((12, 0), "B"), some ((12, 0), "B")) ∧
    (some (((12, 0) : TimeOfDay), ("B" : Status)) : Option Slot) ≠
      some (((0, 0) : TimeOfDay), ("A" : Status)) :=
  ⟨rfl, by decide⟩

/-- C1 (amended): whenever every entry's projected instant is `≤ now` (the
current slot is the last of the day) and the timetable has at least two
entries, the returned next slot is the current (last) slot itself — the
stale lookahead of the scan — not the first entry of the sorted list. -/
theorem resolve_after_last_next_is_current (times : List Entry) (now : Nat)
    (h2 : 2 ≤ times.length) (hall : ∀ e ∈ times, projectKey e.1 ≤ now) :
    ∃ cur, (sortedSlots times).getLast? = some cur ∧
      resolve_slot times now = Except.ok (cur.2, some cur.2) := by
  have hne : times ≠ [] := by
    intro h
    rw [h] at h2
    simp at h2
  obtain ⟨cur, hl, hr⟩ := resolve_slot_all_le times now hne hall
  rw [if_pos h2] at hr
  exact ⟨cur, hl, hr⟩

/-- C1 witness: the amended claim at the spec's own example. -/
theorem resolve_after_last_next_is_current_witness :
    2 ≤ ([((0, 0), "A"), ((12, 0), "B")] : List Entry).length ∧
    (∀ e ∈ ([((0, 0), "A"), ((12, 0), "B")] : List Entry),
      projectKey e.1 ≤ projectKey (23, 0)) ∧
    ∃ cur, (sortedSlots [((0, 0), "A"), ((12, 0), "B")]).getLast? = some cur ∧
      resolve_slot [((0, 0), "A"), ((12, 0), "B")] (projectKey (23, 0)) =
        Except.ok (cur.2, some cur.2) :=
  ⟨by decide, by decide,
    resolve_after_last_next_is_current _ _ (by decide) (by decide)⟩

/-- C2 counterexample: on the empty timetable the code fails with the
`IndexError` raised by `slots[-1]`, which is not the dedicated
`EmptyTimetableError` the claim describes (no such error exists in the
code). -/
theorem resolve_empty_counterexample :
    resolve_slot [] 0 = Except.error PyError.indexError ∧
    PyError.indexError ≠ PyError.emptyTimetableError :=
  ⟨rfl, by decide⟩

/-- C2 (amended): resolution fails exactly on the empty timetable — with an
unhandled `IndexError` from `slots[-1]`, not a recognized
`EmptyTimetableError` — and on every non-empty timetable it succeeds;
`IndexError` is the only error it can produce. -/
theorem resolve_error_iff_empty (times : List Entry) (now : Nat) :
    (resolve_slot times now = Except.error PyError.indexError ↔ times = []) ∧
    (∀ e, resolve_slot times now = Except.error e →
      e = PyError.indexError) := by
  have hempty : resolve_slot [] now = Except.error PyError.indexError := rfl
  constructor
  · constructor
    · intro herr
      by_contra hne
      obtain ⟨c, n, hok⟩ := resolve_slot_isOk times now hne
      rw [hok] at herr
      exact Except.noConfusion herr
    · intro h
      rw [h]
      exact hempty
  · intro e herr
    by_cases hne : times = []
    · rw [hne, hempty] at herr
      injection herr with h
      exact h.symm
    · obtain ⟨c, n, hok⟩ := resolve_slot_isOk times now hne
      rw [hok] at herr
      exact Except.noConfusion herr

/-- C2 witness: the amended claim at a concrete non-empty timetable and at
the empty one. -/
theorem resolve_error_iff_empty_witness :
    ((resolve_slot [((0, 0), "A")] 0 = Except.error PyError.indexError ↔
        ([((0, 0), "A")] : List Entry) = []) ∧
      (∀ e, resolve_slot [((0, 0), "A")] 0 = Except.error e →
        e = PyError.indexError)) ∧
    resolve_slot [] 0 = Except.error PyError.indexError :=
  ⟨resolve_error_iff_empty [((0, 0), "A")] 0,
    (resolve_error_iff_empty [] 0).1.mpr rfl⟩

/-- C4: when `now` precedes every entry's projected instant, the current
slot wraps to the last slot of the sorted list (yesterday's final window)
and the next slot is the first slot of the list. -/
theorem resolve_before_first_wraps (times : List Entry) (now : Nat)
    (hne : times ≠ []) (hall : ∀ e ∈ times, now < projectKey e.1) :
    ∃ cur nxt, (sortedSlots times).getLast? = some cur ∧
      (sortedSlots times).head? = some nxt ∧
      resolve_slot times now = Except.ok (cur.2, some nxt.2) :=
  resolve_slot_all_gt times now hne hall

/-- C4 witness: the spec's example `{"02:00":A, "14:00":B}` at 00:30 yields
current `("14:00",B)` and next `("02:00",A)`. -/
theorem resolve_before_first_wraps_witness :
    ([((2, 0), "A"), ((14, 0), "B")] : List Entry) ≠ [] ∧
    (∀ e ∈ ([((2, 0), "A"), ((14, 0), "B")] : List Entry),
      projectKey (0, 30) < projectKey e.1) ∧
    (∃ cur nxt,
      (sortedSlots [((2, 0), "A"), ((14, 0), "B")]).getLast? = some cur ∧
      (sortedSlots [((2, 0), "A"), ((14, 0), "B")]).head? = some nxt ∧
      resolve_slot [((2, 0), "A"), ((14, 0), "B")] (projectKey (0, 30)) =
        Except.ok (cur.2, some nxt.2)) ∧
    resolve_slot [((2, 0), "A"), ((14, 0), "B")] (projectKey (0, 30)) =
      Except.ok (((14, 0), "B"), some ((2, 0), "A")) :=
  ⟨by decide, by decide,
    resolve_before_first_wraps _ _ (by decide) (by decide), rfl⟩

/-- C3: on every non-empty timetable resolution succeeds with a current slot
drawn from the timetable's entries, and whenever some entry's projected
instant is `≤ now`, the current slot is exactly the entry with the latest
such instant (unique once the projected instants are distinct, as they are
for a dict keyed by times of day). -/
theorem resolve_current_member_latest (times : List Entry) (now : Nat)
    (hne : times ≠ []) :
    ∃ cur nxt, resolve_slot times now = Except.ok (cur, nxt) ∧ cur ∈ times ∧
      ((∃ e ∈ times, projectKey e.1 ≤ now) →
        projectKey cur.1 ≤ now ∧
        (∀ e ∈ times, projectKey e.1 ≤ now →
          projectKey e.1 ≤ projectKey cur.1) ∧
        ((times.map (fun e => projectKey e.1)).Nodup →
          ∀ e ∈ times, projectKey e.1 ≤ now →
            (∀ x ∈ times, projectKey x.1 ≤ now →
              projectKey x.1 ≤ projectKey e.1) → e = cur)) := by
  have hS := sortedSlots_ne_nil hne
  have hsorted := sorted_sortedSlots times
  have hsplit2 := List.takeWhile_append_dropWhile
    (p := fun x : Nat × Slot => decide (x.1 ≤ now)) (l := sortedSlots times)
  by_cases hex : ∃ e ∈ times, projectKey e.1 ≤ now
  · by_cases hgt : ∃ e ∈ times, now < projectKey e.1
    · obtain ⟨curp, nxtp, htwl, _, hok⟩ :=
        resolve_slot_mixed times now hne hex hgt
      have hcurtw : curp ∈ (sortedSlots times).takeWhile
          (fun x => decide (x.1 ≤ now)) := mem_of_getLast?_eq htwl
      have hcurS : curp ∈ sortedSlots times := by
        rw [← hsplit2]
        exact List.mem_append_left _ hcurtw
      obtain ⟨hcmem, hckey⟩ := mem_sortedSlots.mp hcurS
      have hcle : projectKey curp.2.1 ≤ now := by
        have hpt := List.mem_takeWhile_imp hcurtw
        rw [← hckey]
        exact of_decide_eq_true hpt
      have hmax : ∀ e ∈ times, projectKey e.1 ≤ now →
          projectKey e.1 ≤ projectKey curp.2.1 := by
        intro e he hele
        have hxS : ((projectKey e.1, e) : Nat × Slot) ∈ sortedSlots times :=
          mem_sortedSlots.mpr ⟨he, rfl⟩
        rw [← hsplit2] at hxS
        rcases List.mem_append.mp hxS with hin | hin
        · have htwne : (sortedSlots times).takeWhile
              (fun x => decide (x.1 ≤ now)) ≠ [] := List.ne_nil_of_mem hin
          have hstw : List.Sorted slotLE ((sortedSlots times).takeWhile
              (fun x => decide (x.1 ≤ now))) := by
            have hsub : List.Sublist ((sortedSlots times).takeWhile
                (fun x => decide (x.1 ≤ now))) (sortedSlots times) := by
              conv_rhs => rw [← hsplit2]
              exact List.sublist_append_left _ _
            exact List.Pairwise.sublist hsub hsorted
          have hb := sorted_le_getLast hstw htwne _ hin
          have hcg : ((sortedSlots times).takeWhile
              (fun x => decide (x.1 ≤ now))).getLast htwne = curp := by
            have h3 := List.getLast?_eq_getLast _ htwne
            rw [htwl] at h3
            exact (Option.some_injective _ h3).symm
          rw [hcg] at hb
          rw [← hckey]
          exact hb
        · have hgtx := dropWhile_gt_of_sorted hsorted now _ hin
          exact absurd (Nat.lt_of_lt_of_le hgtx hele) (Nat.lt_irrefl now)
      exact ⟨curp.2, some nxtp.2, hok, hcmem,
        fun _ => ⟨hcle, hmax, fun hnd => unique_max_entry hcmem hcle hmax hnd⟩⟩
    · push_neg at hgt
      obtain ⟨curp, hl, hok⟩ := resolve_slot_all_le times now hne hgt
      have hcurS : curp ∈ sortedSlots times := mem_of_getLast?_eq hl
      obtain ⟨hcmem, hckey⟩ := mem_sortedSlots.mp hcurS
      have hcle : projectKey curp.2.1 ≤ now := hgt _ hcmem
      have hcg : (sortedSlots times).getLast hS = curp := by
        have h3 := List.getLast?_eq_getLast _ hS
        rw [hl] at h3
        exact (Option.some_injective _ h3).symm
      have hmax : ∀ e ∈ times, projectKey e.1 ≤ now →
          projectKey e.1 ≤ projectKey curp.2.1 := by
        intro e he _
        have hxS : ((projectKey e.1, e) : Nat × Slot) ∈ sortedSlots times :=
          mem_sortedSlots.mpr ⟨he, rfl⟩
        have hb := sorted_le_getLast hsorted hS _ hxS
        rw [hcg] at hb
        rw [← hckey]
        exact hb
      exact ⟨curp.2, _, hok, hcmem,
        fun _ => ⟨hcle, hmax, fun hnd => unique_max_entry hcmem hcle hmax hnd⟩⟩
  · push_neg at hex
    obtain ⟨curp, nxtp, hl, _, hok⟩ := resolve_slot_all_gt times now hne hex
    have hcurS : curp ∈ sortedSlots times := mem_of_getLast?_eq hl
    obtain ⟨hcmem, _⟩ := mem_sortedSlots.mp hcurS
    refine ⟨curp.2, some nxtp.2, hok, hcmem, fun hex' => ?_⟩
    obtain ⟨e, he, hele⟩ := hex'
    exact absurd (Nat.lt_of_lt_of_le (hex e he) hele) (Nat.lt_irrefl now)

/-- C3 witness: the characterization at `{"00:00":A, "12:00":B}` with
`now` = 06:00. -/
theorem resolve_current_member_latest_witness :
    ([((0, 0), "A"), ((12, 0), "B")] : List Entry) ≠ [] ∧
    ∃ cur nxt,
      resolve_slot [((0, 0), "A"), ((12, 0), "B")] (projectKey (6, 0)) =
        Except.ok (cur, nxt) ∧
      cur ∈ ([((0, 0), "A"), ((12, 0), "B")] : List Entry) ∧
      ((∃ e ∈ ([((0, 0), "A"), ((12, 0), "B")] : List Entry),
          projectKey e.1 ≤ projectKey (6, 0)) →
        projectKey cur.1 ≤ projectKey (6, 0) ∧
        (∀ e ∈ ([((0, 0), "A"), ((12, 0), "B")] : List Entry),
          projectKey e.1 ≤ projectKey (6, 0) →
          projectKey e.1 ≤ projectKey cur.1) ∧
        ((([((0, 0), "A"), ((12, 0), "B")] : List Entry).map
            (fun e => projectKey e.1)).Nodup →
          ∀ e ∈ ([((0, 0), "A"), ((12, 0), "B")] : List Entry),
            projectKey e.1 ≤ projectKey (6, 0) →
            (∀ x ∈ ([((0, 0), "A"), ((12, 0), "B")] : List Entry),
              projectKey x.1 ≤ projectKey (6, 0) →
              projectKey x.1 ≤ projectKey e.1) → e = cur)) :=
  ⟨by decide,
    resolve_current_member_latest [((0, 0), "A"), ((12, 0), "B")]
      (projectKey (6, 0)) (by decide)⟩

end Svitlana
